import Mathlib

/-!
# Verification of the XNOR-Net weight-binarization notebook

A shallow embedding of the `Binarizer` helper class and the `BinaryActivation`
autograd function from the binary-networks notebook, together with proofs of the
specification's claims about them.

Tensors are modelled as rank-indexed total functions over `Fin`-ranges with
rational entries; the model is a finite ordered list of modules, each carrying a
kind tag, a weight tensor and a bias tensor.  The `Binarizer` keeps the model,
the list of indices of its tracked modules (the Python code keeps aliases of the
weight tensors; explicit indices into the explicitly passed model state play
that role here) and the list of shadow buffers (`saved_params`), plus the cached
`num_of_params`.
-/

/-- Rational tensors of the ranks relevant to the notebook: rank 2 (linear
weights), rank 4 (`Conv2d` weights) and rank 3 as a representative of an
unsupported weight rank. -/
inductive Tensor : Type where
  | t2 : (r c : ℕ) → (Fin r → Fin c → ℚ) → Tensor
  | t3 : (p q s : ℕ) → (Fin p → Fin q → Fin s → ℚ) → Tensor
  | t4 : (o i h k : ℕ) → (Fin o → Fin i → Fin h → Fin k → ℚ) → Tensor

instance : Inhabited Tensor := ⟨.t2 0 0 (fun a _ => a.elim0)⟩

/-- Rank of a tensor (`len(t.size())` in the source). -/
def Tensor.rank : Tensor → ℕ
  | .t2 _ _ _ => 2
  | .t3 _ _ _ _ => 3
  | .t4 _ _ _ _ _ => 4

/-- Entry of a tensor at a list of indices, defaulting to `0` out of range. -/
def Tensor.entry : Tensor → List ℕ → ℚ
  | .t2 r c f, [a, b] =>
      if h : a < r ∧ b < c then f ⟨a, h.1⟩ ⟨b, h.2⟩ else 0
  | .t3 p q s f, [a, b, cc] =>
      if h : a < p ∧ b < q ∧ cc < s then f ⟨a, h.1⟩ ⟨b, h.2.1⟩ ⟨cc, h.2.2⟩ else 0
  | .t4 o i hh k f, [a, b, cc, d] =>
      if h : a < o ∧ b < i ∧ cc < hh ∧ d < k then
        f ⟨a, h.1⟩ ⟨b, h.2.1⟩ ⟨cc, h.2.2.1⟩ ⟨d, h.2.2.2⟩
      else 0
  | _, _ => 0

/-- Shape of a tensor (`t.size()` in the source). -/
def Tensor.shape : Tensor → List ℕ
  | .t2 r c _ => [r, c]
  | .t3 p q s _ => [p, q, s]
  | .t4 o i h k _ => [o, i, h, k]

/-- Every valid index tuple of a tensor, enumerated in order. -/
def Tensor.allIdx : Tensor → List (List ℕ)
  | .t2 r c _ =>
      (List.range r).flatMap fun a => (List.range c).map fun b => [a, b]
  | .t3 p q s _ =>
      (List.range p).flatMap fun a => (List.range q).flatMap fun b =>
        (List.range s).map fun cc => [a, b, cc]
  | .t4 o i h k _ =>
      (List.range o).flatMap fun a => (List.range i).flatMap fun b =>
        (List.range h).flatMap fun cc => (List.range k).map fun d => [a, b, cc, d]

/-- Boolean equality of tensors: same shape and equal at every index tuple.
Used only to give `Tensor` a `DecidableEq` instance whose evaluation does not
get stuck on dependent casts. -/
def Tensor.beq (t u : Tensor) : Bool :=
  t.shape == u.shape && t.allIdx.all fun ix => t.entry ix == u.entry ix

instance : DecidableEq Tensor := fun t u =>
  decidable_of_iff (Tensor.beq t u = true) (by
    constructor
    · intro h
      simp only [Tensor.beq, Bool.and_eq_true, beq_iff_eq, List.all_eq_true] at h
      obtain ⟨hs, he⟩ := h
      cases t with
      | t2 r c f =>
        cases u with
        | t2 r' c' f' =>
          simp only [Tensor.shape, List.cons.injEq, and_true] at hs
          obtain ⟨rfl, rfl, -⟩ := hs
          congr 1
          funext a b
          have hmem : [a.1, b.1] ∈ (Tensor.t2 r c f).allIdx := by
            simp only [Tensor.allIdx, List.mem_flatMap, List.mem_map, List.mem_range]
            exact ⟨a.1, a.isLt, b.1, b.isLt, rfl⟩
          have := he [a.1, b.1] hmem
          simpa [Tensor.entry, a.isLt, b.isLt] using this
        | t3 p q s f' => simp [Tensor.shape] at hs
        | t4 o i hh k f' => simp [Tensor.shape] at hs
      | t3 p q s f =>
        cases u with
        | t2 r' c' f' => simp [Tensor.shape] at hs
        | t3 p' q' s' f' =>
          simp only [Tensor.shape, List.cons.injEq, and_true] at hs
          obtain ⟨rfl, rfl, rfl, -⟩ := hs
          congr 1
          funext a b cc
          have hmem : [a.1, b.1, cc.1] ∈ (Tensor.t3 p q s f).allIdx := by
            simp only [Tensor.allIdx, List.mem_flatMap, List.mem_map, List.mem_range]
            exact ⟨a.1, a.isLt, b.1, b.isLt, cc.1, cc.isLt, rfl⟩
          have := he [a.1, b.1, cc.1] hmem
          simpa [Tensor.entry, a.isLt, b.isLt, cc.isLt] using this
        | t4 o i hh k f' => simp [Tensor.shape] at hs
      | t4 o i hh k f =>
        cases u with
        | t2 r' c' f' => simp [Tensor.shape] at hs
        | t3 p q s f' => simp [Tensor.shape] at hs
        | t4 o' i' hh' k' f' =>
          simp only [Tensor.shape, List.cons.injEq, and_true] at hs
          obtain ⟨rfl, rfl, rfl, rfl, -⟩ := hs
          congr 1
          funext a b cc d
          have hmem : [a.1, b.1, cc.1, d.1] ∈ (Tensor.t4 o i hh k f).allIdx := by
            simp only [Tensor.allIdx, List.mem_flatMap, List.mem_map, List.mem_range]
            exact ⟨a.1, a.isLt, b.1, b.isLt, cc.1, cc.isLt, d.1, d.isLt, rfl⟩
          have := he [a.1, b.1, cc.1, d.1] hmem
          simpa [Tensor.entry, a.isLt, b.isLt, cc.isLt, d.isLt] using this
    · rintro rfl
      simp [Tensor.beq, List.all_eq_true])

/-- The `torch.sign` of one rational entry: `+1`, `-1`, or `0` at exactly zero. -/
def qsign (x : ℚ) : ℚ := if 0 < x then 1 else if x < 0 then -1 else 0

/-- The source's `clamp(-1.0, 1.0)` on one entry. -/
def qclamp (x : ℚ) : ℚ := min (max x (-1)) 1

/-- Centering, `m.data.add(m.data.mean(1, keepdim=True).mul(-1))`: subtract the mean taken
along dimension 1 (broadcast back over that dimension). -/
def centerT : Tensor → Tensor
  | .t2 r c f => .t2 r c (fun a b => f a b - (∑ j, f a j) / (c : ℚ))
  | .t3 p q s f => .t3 p q s (fun a b d => f a b d - (∑ j, f a j d) / (q : ℚ))
  | .t4 o i h k f => .t4 o i h k (fun a b cc d => f a b cc d - (∑ j, f a j cc d) / (i : ℚ))

/-- Clamping, `m.data.clamp(-1.0, 1.0)`, elementwise. -/
def clampT : Tensor → Tensor
  | .t2 r c f => .t2 r c (fun a b => qclamp (f a b))
  | .t3 p q s f => .t3 p q s (fun a b d => qclamp (f a b d))
  | .t4 o i h k f => .t4 o i h k (fun a b cc d => qclamp (f a b cc d))

/-- Per-output-unit scale of a rank-2 weight:
`m.data.norm(1, 1, keepdim=True).div(n)` with `n = m.data[0].nelement() = c`. -/
def scale2 (r c : ℕ) (f : Fin r → Fin c → ℚ) (a : Fin r) : ℚ :=
  (∑ b, |f a b|) / ((c : ℕ) : ℚ)

/-- Per-output-channel scale of a rank-4 weight:
`m.data.norm(1, 3, keepdim=True).sum([1,2], keepdim=True).div(n)` with
`n = m.data[0].nelement() = i*h*k`. -/
def scale4 (o i h k : ℕ) (f : Fin o → Fin i → Fin h → Fin k → ℚ) (a : Fin o) : ℚ :=
  (∑ b, ∑ cc, ∑ d, |f a b cc d|) / (((i * h * k : ℕ)) : ℚ)

/-- Binarization `m.data.sign().mul(mean)` for a rank-2 weight, the per-row scale being
broadcast along dimension 1. -/
def bin2 (r c : ℕ) (f : Fin r → Fin c → ℚ) : Tensor :=
  .t2 r c (fun a b => qsign (f a b) * scale2 r c f a)

/-- Binarization `m.data.sign().mul(mean)` for a rank-4 weight, the per-output-channel scale
being broadcast along dimensions 1, 2, 3. -/
def bin4 (o i h k : ℕ) (f : Fin o → Fin i → Fin h → Fin k → ℚ) : Tensor :=
  .t4 o i h k (fun a b cc d => qsign (f a b cc d) * scale4 o i h k f a)

/-- The per-output-slice scale exactly as `_binarize_weights` computes it,
exposed as a function of the tensor it is computed from (rank 3 never reaches a
scale computation). -/
def scaleOf (t : Tensor) (a : ℕ) : ℚ :=
  match t with
  | .t2 r c f => if h : a < r then scale2 r c f ⟨a, h⟩ else 0
  | .t3 _ _ _ _ => 0
  | .t4 o i hh k f => if h : a < o then scale4 o i hh k f ⟨a, h⟩ else 0

/-- NNModule kinds distinguished by the `isinstance` checks of the source. -/
inductive ModuleKind : Type where
  | conv2d | linear | batchNorm | other
deriving DecidableEq

/-- One module of the model: a kind tag, its weight tensor and its bias
(standing for all its non-weight parameters). -/
structure NNModule : Type where
  kind : ModuleKind
  weight : Tensor
  bias : Tensor

instance : DecidableEq NNModule := fun m m' =>
  decidable_of_iff (m.kind = m'.kind ∧ m.weight = m'.weight ∧ m.bias = m'.bias)
    (by cases m; cases m'; simp)

instance : Inhabited NNModule := ⟨⟨.other, default, default⟩⟩

/-- The check `isinstance(m, nn.Conv2d) or isinstance(m, nn.Linear)`. -/
def eligible (m : NNModule) : Bool :=
  match m.kind with
  | .conv2d => true
  | .linear => true
  | _ => false

/-- The module stored at position `j` of the model. -/
def moduleAt (md : List NNModule) (j : ℕ) : NNModule := md.getD j default

/-- The weight tensor stored at position `j` of the model. -/
def weightAt (md : List NNModule) (j : ℕ) : Tensor := (moduleAt md j).weight

/-- Overwrite (in place, in the Python source) the weight of module `j`;
out-of-range indices never occur and leave the model unchanged. -/
def setWeight : List NNModule → ℕ → Tensor → List NNModule
  | [], _, _ => []
  | m :: rest, 0, t => { m with weight := t } :: rest
  | m :: rest, Nat.succ j, t => m :: setWeight rest j t

/-- Indices (in forward-traversal order) of the eligible modules collected by
the constructor's `for m in model.modules()` loop. -/
def eligibleIdxs (md : List NNModule) : List ℕ :=
  (List.range md.length).filter (fun j => eligible (moduleAt md j))

/-- The state of the Python `Binarizer` object, together with the model whose
weights its `target_modules` list aliases. -/
structure Binarizer : Type where
  model : List NNModule
  trackedIdxs : List ℕ
  saved_params : List Tensor
  num_of_params : ℕ

instance : DecidableEq Binarizer := fun b b' =>
  decidable_of_iff (b.model = b'.model ∧ b.trackedIdxs = b'.trackedIdxs ∧
      b.saved_params = b'.saved_params ∧ b.num_of_params = b'.num_of_params)
    (by cases b; cases b'; simp)

/-- The constructor `Binarizer.__init__`: collect the weights of eligible modules (shadow
buffers start as clones of the weights); if `ignore_first_last` and more than
two eligible modules exist, slice both lists with `[1:-1]`; finally cache
`num_of_params`. -/
def Binarizer.init (model : List NNModule) (ignore_first_last : Bool) : Binarizer :=
  let idxs := eligibleIdxs model
  let saved := idxs.map (weightAt model)
  if ignore_first_last = true ∧ 2 < idxs.length then
    ⟨model, (idxs.drop 1).dropLast, (saved.drop 1).dropLast, ((idxs.drop 1).dropLast).length⟩
  else
    ⟨model, idxs, saved, idxs.length⟩

/-- The mean-centering and clamping loop at the start of `binarize_weights`:
`for m in self.target_modules: m.data = m.data.add(neg_mean); m.data = m.data.clamp(-1.0, 1.0)`. -/
def centerClampLoop (md : List NNModule) : List ℕ → List NNModule
  | [] => md
  | j :: rest => centerClampLoop (setWeight md j (clampT (centerT (weightAt md j)))) rest

/-- The method `Binarizer._save_params`: copy each tracked weight into its aligned shadow
buffer.  The source loops `for i in range(len(self.saved_params))` copying
`self.target_modules[i].data`; the two lists are built together at construction
and never change length, so this is the index-aligned map below. -/
def Binarizer._save_params (b : Binarizer) : Binarizer :=
  { b with saved_params := b.trackedIdxs.map (weightAt b.model) }

/-- How a run of `_binarize_weights` can fail (the source defines no
`ConfigurationError`; no exception class of its own exists). -/
inductive BinErr : Type where
  | /-- Python raises `UnboundLocalError`: the first processed weight has rank neither 4
  nor 2, so `mean` is read before any assignment to it. -/
    unboundLocalMean
  | /-- A weight of rank neither 4 nor 2 is reached after some supported-rank
  weight: the source silently multiplies `m.data.sign()` by the stale `mean`
  tensor left over from the previous iteration, under broadcast semantics.
  This embedding does not model that multiplication and flags the branch
  instead; no theorem below depends on it. -/
    staleMeanBroadcast
deriving DecidableEq

/-- One iteration of the `_binarize_weights` loop body on weight `t`, with
`meanSt` the value the local variable `mean` holds when the iteration starts
(`none` before the first assignment to it). -/
def binStep (t : Tensor) (meanSt : Option Tensor) : Except BinErr (Tensor × Option Tensor) :=
  match t with
  | .t4 o i h k f =>
      .ok (bin4 o i h k f, some (.t4 o 1 1 1 (fun a _ _ _ => scale4 o i h k f a)))
  | .t2 r c f =>
      .ok (bin2 r c f, some (.t2 r 1 (fun a _ => scale2 r c f a)))
  | .t3 _ _ _ _ =>
      match meanSt with
      | none => .error .unboundLocalMean
      | some _ => .error .staleMeanBroadcast

/-- Loop `for m in self.target_modules` of `_binarize_weights`, threading
the local variable `mean` through the iterations. -/
def binarizeLoop (md : List NNModule) (meanSt : Option Tensor) :
    List ℕ → Except BinErr (List NNModule)
  | [] => .ok md
  | j :: rest =>
      match binStep (weightAt md j) meanSt with
      | .ok (t', mean') => binarizeLoop (setWeight md j t') mean' rest
      | .error e => .error e

/-- The method `Binarizer.binarize_weights`: center and clamp every tracked weight, save
the results into the shadow buffers, then overwrite every tracked weight with
its sign times its per-output-slice scale. -/
def Binarizer.binarize_weights (b : Binarizer) : Except BinErr Binarizer :=
  let b1 : Binarizer := { b with model := centerClampLoop b.model b.trackedIdxs }
  let b2 := b1._save_params
  match binarizeLoop b2.model none b2.trackedIdxs with
  | .ok md' => .ok { b2 with model := md' }
  | .error e => .error e

/-- Loop `for index in range(self.num_of_params)` of `restore_weights`,
copying shadow buffer values back into the aligned tracked weights. -/
def restoreLoop (md : List NNModule) : List (ℕ × Tensor) → List NNModule
  | [] => md
  | (j, t) :: rest => restoreLoop (setWeight md j t) rest

/-- The method `Binarizer.restore_weights`: copy each shadow buffer back into its aligned
tracked weight.  `num_of_params` always equals the (common) length of the two
lists, so the truncating `zip` below walks exactly the source's index range. -/
def Binarizer.restore_weights (b : Binarizer) : Binarizer :=
  { b with model := restoreLoop b.model ((b.trackedIdxs.zip b.saved_params).take b.num_of_params) }

/-- One `binarize_weights(); restore_weights()` cycle with no optimizer step in
between. -/
def Binarizer.cycle (b : Binarizer) : Except BinErr Binarizer :=
  b.binarize_weights.map Binarizer.restore_weights

/-- Iterate `n` repeated binarize/restore cycles. -/
def Binarizer.cycleN : ℕ → Binarizer → Except BinErr Binarizer
  | 0, b => .ok b
  | Nat.succ n, b => b.cycle.bind (Binarizer.cycleN n)

/-- Well-formedness of a `Binarizer` state: the invariants the Python aliasing
structure gives for free.  Established by `Binarizer.init` and preserved by
every operation. -/
def Binarizer.WF (b : Binarizer) : Prop :=
  b.saved_params.length = b.trackedIdxs.length ∧
  b.num_of_params = b.trackedIdxs.length ∧
  (∀ j ∈ b.trackedIdxs, j < b.model.length) ∧
  b.trackedIdxs.Nodup

/-- The saved input of `BinaryActivation.forward`, i.e. the contents of `ctx`
after `ctx.save_for_backward(input)`. -/
structure ActCtx : Type where
  saved : Tensor

/-- Elementwise sign of a tensor (`input.sign()`). -/
def signT : Tensor → Tensor
  | .t2 r c f => .t2 r c (fun a b => qsign (f a b))
  | .t3 p q s f => .t3 p q s (fun a b d => qsign (f a b d))
  | .t4 o i h k f => .t4 o i h k (fun a b cc d => qsign (f a b cc d))

/-- The function `BinaryActivation.forward`: save the input for the backward pass and return
its elementwise sign (the input tensor itself is not written to). -/
def BinaryActivation.forward (input : Tensor) : ActCtx × Tensor :=
  (⟨input⟩, signT input)

/-- The function `BinaryActivation.backward`: `grad_input = grad_output.clone()` and return
it — the upstream gradient, passed through unchanged (a fresh copy in the
source; value-identical here), with no dependence on the saved input. -/
def BinaryActivation.backward (_ctx : ActCtx) (grad_output : Tensor) : Tensor :=
  grad_output

instance : DecidableEq (Except BinErr Binarizer) := fun x y =>
  match x, y with
  | .ok a, .ok b => decidable_of_iff (a = b) (by simp)
  | .error e, .error e' => decidable_of_iff (e = e') (by simp)
  | .ok _, .error _ => isFalse (fun h => Except.noConfusion h)
  | .error _, .ok _ => isFalse (fun h => Except.noConfusion h)

/-- The transform `_binarize_weights` applies to one supported-rank weight
(ranks other than 2 and 4 never produce a weight, see `binStep`). -/
def binT : Tensor → Tensor
  | .t2 r c f => bin2 r c f
  | .t4 o i h k f => bin4 o i h k f
  | t => t

/-- Shorthand for the center-then-clamp transform of `binarize_weights` step 1. -/
def centerClamp (t : Tensor) : Tensor := clampT (centerT t)

/-- A tiny concrete model used by the witnesses below: one batch-norm module
followed by one linear module (so exactly one eligible layer is tracked). -/
def modelEx : List NNModule :=
  [⟨.batchNorm, .t2 1 2 ![![(7 : ℚ), 8]], .t2 1 2 ![![(9 : ℚ), 1]]⟩,
   ⟨.linear, .t2 2 2 ![![(1 : ℚ), -1], ![1, 1]], .t2 1 2 ![![(5 : ℚ), 6]]⟩]

/-- The binarizer built on `modelEx`. -/
def bEx : Binarizer := Binarizer.init modelEx true

/-- The state `bEx.binarize_weights` computes: row 0 of the linear weight is
already centered ((1,-1), scale 1), row 1 ((1,1)) centers to (0,0) (scale 0). -/
def bExAfter : Binarizer :=
  ⟨[⟨.batchNorm, .t2 1 2 ![![(7 : ℚ), 8]], .t2 1 2 ![![(9 : ℚ), 1]]⟩,
    ⟨.linear, .t2 2 2 ![![(1 : ℚ), -1], ![0, 0]], .t2 1 2 ![![(5 : ℚ), 6]]⟩],
   [1], [.t2 2 2 ![![(1 : ℚ), -1], ![0, 0]]], 1⟩

/-- A model with four eligible linear layers, for the exclusion-policy witness. -/
def modelC3 : List NNModule :=
  [⟨.linear, .t2 1 1 ![![(1 : ℚ)]], default⟩,
   ⟨.linear, .t2 1 1 ![![(2 : ℚ)]], default⟩,
   ⟨.linear, .t2 1 1 ![![(3 : ℚ)]], default⟩,
   ⟨.linear, .t2 1 1 ![![(4 : ℚ)]], default⟩]

/-- A model with no eligible layer at all (a single batch-norm module). -/
def modelC4 : List NNModule :=
  [⟨.batchNorm, .t2 1 1 ![![(2 : ℚ)]], .t2 1 1 ![![(3 : ℚ)]]⟩]

/-- A model whose single tracked weight has the unsupported rank 3. -/
def modelC5 : List NNModule :=
  [⟨.linear, .t3 1 1 1 (fun _ _ _ => 1), default⟩]

/-- The binarizer built on `modelC5`. -/
def bC5 : Binarizer := Binarizer.init modelC5 true

/-- A model whose single tracked linear weight has an all-zero output row next
to a non-zero one: rows (0,0) and (-1,1); both rows are fixed by centering and
clamping. -/
def modelC7 : List NNModule :=
  [⟨.linear, .t2 2 2 ![![(0 : ℚ), 0], ![-1, 1]], default⟩]

/-- The binarizer built on `modelC7`. -/
def bC7 : Binarizer := Binarizer.init modelC7 true

/-- The state `bC7.binarize_weights` computes: the weight is unchanged (row 0
has scale 0 and binarizes to (0,0); row 1 has scale 1 and sign (-1,1)). -/
def bC7After : Binarizer :=
  ⟨[⟨.linear, .t2 2 2 ![![(0 : ℚ), 0], ![-1, 1]], default⟩],
   [0], [.t2 2 2 ![![(0 : ℚ), 0], ![-1, 1]]], 1⟩

instance (b : Binarizer) : Decidable b.WF := by
  unfold Binarizer.WF
  infer_instance

theorem setWeight_length (md : List NNModule) (j : ℕ) (t : Tensor) :
    (setWeight md j t).length = md.length := by
  induction md generalizing j with
  | nil => rfl
  | cons m rest ih =>
    cases j with
    | zero => rfl
    | succ j => simp [setWeight, ih]

theorem setWeight_oob (md : List NNModule) (j : ℕ) (t : Tensor) (h : md.length ≤ j) :
    setWeight md j t = md := by
  induction md generalizing j with
  | nil => rfl
  | cons m rest ih =>
    cases j with
    | zero => simp at h
    | succ j =>
      simp only [setWeight, List.cons.injEq, true_and]
      exact ih j (by simpa using h)

theorem moduleAt_setWeight_self (md : List NNModule) (j : ℕ) (t : Tensor) (h : j < md.length) :
    moduleAt (setWeight md j t) j = { moduleAt md j with weight := t } := by
  induction md generalizing j with
  | nil => simp at h
  | cons m rest ih =>
    cases j with
    | zero => rfl
    | succ j =>
      simp only [setWeight]
      simpa [moduleAt, List.getD_cons_succ] using ih j (by simpa using h)

theorem moduleAt_setWeight_ne (md : List NNModule) (j j' : ℕ) (t : Tensor) (h : j ≠ j') :
    moduleAt (setWeight md j t) j' = moduleAt md j' := by
  induction md generalizing j j' with
  | nil => rfl
  | cons m rest ih =>
    cases j with
    | zero =>
      cases j' with
      | zero => exact absurd rfl h
      | succ j' => simp [setWeight, moduleAt, List.getD_cons_succ]
    | succ j =>
      cases j' with
      | zero => rfl
      | succ j' =>
        simp only [setWeight]
        simpa [moduleAt, List.getD_cons_succ] using ih j j' (by omega)

theorem weightAt_setWeight_ne (md : List NNModule) (j j' : ℕ) (t : Tensor) (h : j ≠ j') :
    weightAt (setWeight md j t) j' = weightAt md j' := by
  rw [weightAt, moduleAt_setWeight_ne md j j' t h, weightAt]

theorem moduleAt_setWeight_kind_bias (md : List NNModule) (j j' : ℕ) (t : Tensor) :
    (moduleAt (setWeight md j t) j').kind = (moduleAt md j').kind ∧
      (moduleAt (setWeight md j t) j').bias = (moduleAt md j').bias := by
  by_cases hj : j = j'
  · subst hj
    by_cases hlt : j < md.length
    · rw [moduleAt_setWeight_self md j t hlt]
      exact ⟨rfl, rfl⟩
    · rw [setWeight_oob md j t (le_of_not_lt hlt)]
      exact ⟨rfl, rfl⟩
  · rw [moduleAt_setWeight_ne md j j' t hj]
    exact ⟨rfl, rfl⟩

theorem centerClampLoop_length (js : List ℕ) (md : List NNModule) :
    (centerClampLoop md js).length = md.length := by
  induction js generalizing md with
  | nil => rfl
  | cons j rest ih => simp [centerClampLoop, ih, setWeight_length]

theorem centerClampLoop_frame (js : List ℕ) (md : List NNModule) (j : ℕ) (h : j ∉ js) :
    moduleAt (centerClampLoop md js) j = moduleAt md j := by
  induction js generalizing md with
  | nil => rfl
  | cons x rest ih =>
    simp only [List.mem_cons, not_or] at h
    rw [centerClampLoop, ih _ h.2, moduleAt_setWeight_ne _ _ _ _ (Ne.symm h.1)]

theorem centerClampLoop_kind_bias (js : List ℕ) (md : List NNModule) (j : ℕ) :
    (moduleAt (centerClampLoop md js) j).kind = (moduleAt md j).kind ∧
      (moduleAt (centerClampLoop md js) j).bias = (moduleAt md j).bias := by
  induction js generalizing md with
  | nil => exact ⟨rfl, rfl⟩
  | cons x rest ih =>
    obtain ⟨h1, h2⟩ := ih (setWeight md x (clampT (centerT (weightAt md x))))
    obtain ⟨g1, g2⟩ := moduleAt_setWeight_kind_bias md x j (clampT (centerT (weightAt md x)))
    rw [centerClampLoop]
    exact ⟨by rw [h1, g1], by rw [h2, g2]⟩

theorem centerClampLoop_get (js : List ℕ) (md : List NNModule)
    (hnd : js.Nodup) (hb : ∀ x ∈ js, x < md.length) (j : ℕ) (hj : j ∈ js) :
    moduleAt (centerClampLoop md js) j =
      { moduleAt md j with weight := centerClamp (weightAt md j) } := by
  induction js generalizing md with
  | nil => simp at hj
  | cons x rest ih =>
    obtain ⟨hx, hnd'⟩ := List.nodup_cons.mp hnd
    rw [centerClampLoop]
    rcases List.mem_cons.mp hj with rfl | hmem
    · rw [centerClampLoop_frame rest _ j hx,
        moduleAt_setWeight_self md j _ (hb j (List.mem_cons_self _ _))]
      rfl
    · have hne : x ≠ j := by rintro rfl; exact hx hmem
      rw [ih (setWeight md x (clampT (centerT (weightAt md x)))) hnd'
        (fun y hy => by rw [setWeight_length]; exact hb y (List.mem_cons_of_mem _ hy)) hmem]
      rw [moduleAt_setWeight_ne md x j _ hne, weightAt_setWeight_ne md x j _ hne]

theorem restoreLoop_length (ps : List (ℕ × Tensor)) (md : List NNModule) :
    (restoreLoop md ps).length = md.length := by
  induction ps generalizing md with
  | nil => rfl
  | cons p rest ih =>
    obtain ⟨j, t⟩ := p
    simp [restoreLoop, ih, setWeight_length]

theorem restoreLoop_frame (ps : List (ℕ × Tensor)) (md : List NNModule) (j : ℕ)
    (h : j ∉ ps.map Prod.fst) :
    moduleAt (restoreLoop md ps) j = moduleAt md j := by
  induction ps generalizing md with
  | nil => rfl
  | cons p rest ih =>
    obtain ⟨x, t⟩ := p
    simp only [List.map_cons, List.mem_cons, not_or] at h
    rw [restoreLoop, ih _ h.2, moduleAt_setWeight_ne _ _ _ _ (Ne.symm h.1)]

theorem restoreLoop_kind_bias (ps : List (ℕ × Tensor)) (md : List NNModule) (j : ℕ) :
    (moduleAt (restoreLoop md ps) j).kind = (moduleAt md j).kind ∧
      (moduleAt (restoreLoop md ps) j).bias = (moduleAt md j).bias := by
  induction ps generalizing md with
  | nil => exact ⟨rfl, rfl⟩
  | cons p rest ih =>
    obtain ⟨x, t⟩ := p
    obtain ⟨h1, h2⟩ := ih (setWeight md x t)
    obtain ⟨g1, g2⟩ := moduleAt_setWeight_kind_bias md x j t
    rw [restoreLoop]
    exact ⟨by rw [h1, g1], by rw [h2, g2]⟩

theorem restoreLoop_get (ps : List (ℕ × Tensor)) (md : List NNModule)
    (hnd : (ps.map Prod.fst).Nodup) (hb : ∀ p ∈ ps, p.1 < md.length)
    (i : ℕ) (hi : i < ps.length) :
    moduleAt (restoreLoop md ps) (ps.getD i default).1 =
      { moduleAt md (ps.getD i default).1 with weight := (ps.getD i default).2 } := by
  induction ps generalizing md i with
  | nil => simp at hi
  | cons p rest ih =>
    obtain ⟨x, t⟩ := p
    simp only [List.map_cons, List.nodup_cons] at hnd
    cases i with
    | zero =>
      simp only [List.getD_cons_zero]
      rw [restoreLoop, restoreLoop_frame rest _ x hnd.1,
        moduleAt_setWeight_self md x t (hb (x, t) (List.mem_cons_self _ _))]
    | succ i =>
      simp only [List.getD_cons_succ]
      have hi' : i < rest.length := by simpa using hi
      have hmem : (rest.getD i default) ∈ rest := by
        rw [List.getD_eq_getElem _ _ hi']
        exact List.getElem_mem _
      have hne : x ≠ (rest.getD i default).1 := by
        rintro heq
        exact hnd.1 (heq ▸ List.mem_map_of_mem Prod.fst hmem)
      rw [restoreLoop, ih (setWeight md x t) hnd.2
        (fun p hp => by rw [setWeight_length]; exact hb p (List.mem_cons_of_mem _ hp)) i hi',
        moduleAt_setWeight_ne md x _ t hne]

theorem binarizeLoop_ok_length (js : List ℕ) (md md' : List NNModule) (st : Option Tensor)
    (h : binarizeLoop md st js = .ok md') : md'.length = md.length := by
  induction js generalizing md st with
  | nil =>
    simp only [binarizeLoop, Except.ok.injEq] at h
    rw [← h]
  | cons j rest ih =>
    rw [binarizeLoop] at h
    cases ht : weightAt md j with
    | t2 r c f =>
      rw [ht] at h; simp only [binStep] at h
      rw [ih _ _ h, setWeight_length]
    | t4 o i hh k f =>
      rw [ht] at h; simp only [binStep] at h
      rw [ih _ _ h, setWeight_length]
    | t3 p q s f =>
      rw [ht] at h; cases st <;> simp [binStep] at h

theorem binarizeLoop_frame (js : List ℕ) (md md' : List NNModule) (st : Option Tensor)
    (h : binarizeLoop md st js = .ok md') (j : ℕ) (hj : j ∉ js) :
    moduleAt md' j = moduleAt md j := by
  induction js generalizing md st with
  | nil =>
    simp only [binarizeLoop, Except.ok.injEq] at h
    rw [← h]
  | cons x rest ih =>
    simp only [List.mem_cons, not_or] at hj
    rw [binarizeLoop] at h
    cases ht : weightAt md x with
    | t2 r c f =>
      rw [ht] at h; simp only [binStep] at h
      rw [ih _ _ h hj.2, moduleAt_setWeight_ne _ _ _ _ (Ne.symm hj.1)]
    | t4 o i hh k f =>
      rw [ht] at h; simp only [binStep] at h
      rw [ih _ _ h hj.2, moduleAt_setWeight_ne _ _ _ _ (Ne.symm hj.1)]
    | t3 p q s f =>
      rw [ht] at h; cases st <;> simp [binStep] at h

theorem binarizeLoop_kind_bias (js : List ℕ) (md md' : List NNModule) (st : Option Tensor)
    (h : binarizeLoop md st js = .ok md') (j : ℕ) :
    (moduleAt md' j).kind = (moduleAt md j).kind ∧
      (moduleAt md' j).bias = (moduleAt md j).bias := by
  induction js generalizing md st with
  | nil =>
    simp only [binarizeLoop, Except.ok.injEq] at h
    rw [← h]; exact ⟨rfl, rfl⟩
  | cons x rest ih =>
    rw [binarizeLoop] at h
    cases ht : weightAt md x with
    | t2 r c f =>
      rw [ht] at h; simp only [binStep] at h
      obtain ⟨h1, h2⟩ := ih _ _ h
      obtain ⟨g1, g2⟩ := moduleAt_setWeight_kind_bias md x j (bin2 r c f)
      exact ⟨by rw [h1, g1], by rw [h2, g2]⟩
    | t4 o i hh k f =>
      rw [ht] at h; simp only [binStep] at h
      obtain ⟨h1, h2⟩ := ih _ _ h
      obtain ⟨g1, g2⟩ := moduleAt_setWeight_kind_bias md x j (bin4 o i hh k f)
      exact ⟨by rw [h1, g1], by rw [h2, g2]⟩
    | t3 p q s f =>
      rw [ht] at h; cases st <;> simp [binStep] at h

theorem binarizeLoop_get (js : List ℕ) (md md' : List NNModule) (st : Option Tensor)
    (hnd : js.Nodup) (hb : ∀ x ∈ js, x < md.length)
    (h : binarizeLoop md st js = .ok md') (j : ℕ) (hj : j ∈ js) :
    moduleAt md' j = { moduleAt md j with weight := binT (weightAt md j) } := by
  induction js generalizing md st with
  | nil => simp at hj
  | cons x rest ih =>
    obtain ⟨hx, hnd'⟩ := List.nodup_cons.mp hnd
    rw [binarizeLoop] at h
    cases ht : weightAt md x with
    | t3 p q s f => rw [ht] at h; cases st <;> simp [binStep] at h
    | t2 r c f =>
      rw [ht] at h; simp only [binStep] at h
      rcases List.mem_cons.mp hj with rfl | hmem
      · rw [binarizeLoop_frame rest _ md' _ h j hx,
          moduleAt_setWeight_self md j _ (hb j (List.mem_cons_self _ _)), ht]
        rfl
      · have hne : x ≠ j := by rintro rfl; exact hx hmem
        rw [ih _ _ hnd'
          (fun y hy => by rw [setWeight_length]; exact hb y (List.mem_cons_of_mem _ hy)) h hmem,
          moduleAt_setWeight_ne md x j _ hne, weightAt_setWeight_ne md x j _ hne]
    | t4 o i hh k f =>
      rw [ht] at h; simp only [binStep] at h
      rcases List.mem_cons.mp hj with rfl | hmem
      · rw [binarizeLoop_frame rest _ md' _ h j hx,
          moduleAt_setWeight_self md j _ (hb j (List.mem_cons_self _ _)), ht]
        rfl
      · have hne : x ≠ j := by rintro rfl; exact hx hmem
        rw [ih _ _ hnd'
          (fun y hy => by rw [setWeight_length]; exact hb y (List.mem_cons_of_mem _ hy)) h hmem,
          moduleAt_setWeight_ne md x j _ hne, weightAt_setWeight_ne md x j _ hne]

theorem binarize_weights_eq (b : Binarizer) :
    b.binarize_weights =
      (binarizeLoop (centerClampLoop b.model b.trackedIdxs) none b.trackedIdxs).map
        (fun md' => ⟨md', b.trackedIdxs,
          b.trackedIdxs.map (weightAt (centerClampLoop b.model b.trackedIdxs)),
          b.num_of_params⟩) := by
  simp only [Binarizer.binarize_weights, Binarizer._save_params]
  cases binarizeLoop (centerClampLoop b.model b.trackedIdxs) none b.trackedIdxs <;> rfl

theorem binarize_ok_dest (b b' : Binarizer) (h : b.binarize_weights = .ok b') :
    binarizeLoop (centerClampLoop b.model b.trackedIdxs) none b.trackedIdxs = .ok b'.model ∧
      b'.trackedIdxs = b.trackedIdxs ∧
      b'.saved_params = b.trackedIdxs.map (weightAt (centerClampLoop b.model b.trackedIdxs)) ∧
      b'.num_of_params = b.num_of_params := by
  rw [binarize_weights_eq] at h
  cases hl : binarizeLoop (centerClampLoop b.model b.trackedIdxs) none b.trackedIdxs with
  | error e => rw [hl] at h; simp [Except.map] at h
  | ok md' =>
    rw [hl] at h
    simp only [Except.map, Except.ok.injEq] at h
    rw [← h]
    exact ⟨rfl, rfl, rfl, rfl⟩

theorem restore_model (b : Binarizer) :
    (b.restore_weights).model =
      restoreLoop b.model ((b.trackedIdxs.zip b.saved_params).take b.num_of_params) := rfl

theorem restore_fields (b : Binarizer) :
    (b.restore_weights).trackedIdxs = b.trackedIdxs ∧
      (b.restore_weights).saved_params = b.saved_params ∧
      (b.restore_weights).num_of_params = b.num_of_params :=
  ⟨rfl, rfl, rfl⟩

theorem restore_get (b : Binarizer) (hwf : b.WF) (i : ℕ) (hi : i < b.num_of_params) :
    weightAt (b.restore_weights).model (b.trackedIdxs.getD i 0) =
      b.saved_params.getD i default := by
  obtain ⟨hlen, hnum, hb, hnd⟩ := hwf
  have hi' : i < b.trackedIdxs.length := hnum ▸ hi
  have hzlen : (b.trackedIdxs.zip b.saved_params).length = b.trackedIdxs.length := by
    rw [List.length_zip, hlen, Nat.min_self]
  have htake : (b.trackedIdxs.zip b.saved_params).take b.num_of_params =
      b.trackedIdxs.zip b.saved_params :=
    List.take_of_length_le (by rw [hzlen, hnum])
  have hmapfst : (b.trackedIdxs.zip b.saved_params).map Prod.fst = b.trackedIdxs :=
    List.map_fst_zip _ _ (le_of_eq hlen.symm)
  have hzel : (b.trackedIdxs.zip b.saved_params).getD i default =
      (b.trackedIdxs.getD i 0, b.saved_params.getD i default) := by
    rw [List.getD_eq_getElem _ _ (hzlen ▸ hi'), List.getElem_zip,
      List.getD_eq_getElem _ _ hi', List.getD_eq_getElem _ _ (hlen ▸ hi')]
  have hmain := restoreLoop_get (b.trackedIdxs.zip b.saved_params) b.model
    (by rw [hmapfst]; exact hnd)
    (fun p hp => hb p.1 (List.of_mem_zip hp).1)
    i (hzlen ▸ hi')
  rw [hzel] at hmain
  rw [restore_model, htake, weightAt, hmain]

theorem eligibleIdxs_nodup (md : List NNModule) : (eligibleIdxs md).Nodup :=
  (List.nodup_range _).filter _

theorem eligibleIdxs_bounds (md : List NNModule) :
    ∀ j ∈ eligibleIdxs md, j < md.length :=
  fun _ hj => List.mem_range.mp (List.mem_of_mem_filter hj)

theorem init_WF (model : List NNModule) (ig : Bool) : (Binarizer.init model ig).WF := by
  rw [Binarizer.init]
  by_cases hc : ig = true ∧ 2 < (eligibleIdxs model).length
  · rw [if_pos hc]
    have hsub : ((eligibleIdxs model).drop 1).dropLast.Sublist (eligibleIdxs model) :=
      (List.dropLast_sublist _).trans (List.drop_sublist 1 _)
    refine ⟨?_, rfl, ?_, ?_⟩
    · simp [List.length_dropLast, List.length_drop]
    · exact fun j hj => eligibleIdxs_bounds model j (hsub.subset hj)
    · exact (eligibleIdxs_nodup model).sublist hsub
  · rw [if_neg hc]
    exact ⟨List.length_map _ _, rfl, eligibleIdxs_bounds model, eligibleIdxs_nodup model⟩

theorem binarize_WF (b b' : Binarizer) (hwf : b.WF) (h : b.binarize_weights = .ok b') :
    b'.WF := by
  obtain ⟨hloop, htr, hsv, hnum⟩ := binarize_ok_dest b b' h
  obtain ⟨hlen, hn, hb, hnd⟩ := hwf
  have hml : b'.model.length = b.model.length := by
    rw [binarizeLoop_ok_length _ _ _ _ hloop, centerClampLoop_length]
  refine ⟨?_, ?_, ?_, ?_⟩
  · rw [hsv, htr, List.length_map]
  · rw [hnum, htr, hn]
  · intro j hj
    rw [htr] at hj
    rw [hml]
    exact hb j hj
  · rw [htr]; exact hnd

theorem restore_WF (b : Binarizer) (hwf : b.WF) : (b.restore_weights).WF := by
  obtain ⟨hlen, hn, hb, hnd⟩ := hwf
  refine ⟨hlen, hn, ?_, hnd⟩
  intro j hj
  rw [restore_model, restoreLoop_length]
  exact hb j hj

theorem cycle_WF (b b' : Binarizer) (hwf : b.WF) (h : b.cycle = .ok b') : b'.WF := by
  rw [Binarizer.cycle] at h
  cases hb : b.binarize_weights with
  | error e => rw [hb] at h; simp [Except.map] at h
  | ok b1 =>
    rw [hb] at h
    simp only [Except.map, Except.ok.injEq] at h
    rw [← h]
    exact restore_WF b1 (binarize_WF b b1 hwf hb)

theorem cycleN_WF (n : ℕ) (b b' : Binarizer) (hwf : b.WF)
    (h : Binarizer.cycleN n b = .ok b') : b'.WF := by
  induction n generalizing b with
  | zero =>
    rw [Binarizer.cycleN, Except.ok.injEq] at h
    rw [← h]; exact hwf
  | succ n ih =>
    rw [Binarizer.cycleN] at h
    cases hc : b.cycle with
    | error e => rw [hc] at h; simp [Except.bind] at h
    | ok b1 =>
      rw [hc] at h
      simp only [Except.bind] at h
      exact ih b1 (cycle_WF b b1 hwf hc) h

theorem entry2_fin (r c : ℕ) (f : Fin r → Fin c → ℚ) (a : Fin r) (b : Fin c) :
    (Tensor.t2 r c f).entry [a.1, b.1] = f a b := by
  simp [Tensor.entry, a.isLt, b.isLt]

theorem entry4_fin (o i hh k : ℕ) (f : Fin o → Fin i → Fin hh → Fin k → ℚ)
    (a : Fin o) (b : Fin i) (cc : Fin hh) (d : Fin k) :
    (Tensor.t4 o i hh k f).entry [a.1, b.1, cc.1, d.1] = f a b cc d := by
  simp [Tensor.entry, a.isLt, b.isLt, cc.isLt, d.isLt]

theorem binarize_ok_saved (b b' : Binarizer) (hwf : b.WF)
    (h : b.binarize_weights = .ok b') (i : ℕ) (hi : i < b.num_of_params) :
    b'.saved_params.getD i default =
      centerClamp (weightAt b.model (b.trackedIdxs.getD i 0)) := by
  obtain ⟨hloop, htr, hsv, hnum⟩ := binarize_ok_dest b b' h
  obtain ⟨hlen, hn, hb, hnd⟩ := hwf
  have hi' : i < b.trackedIdxs.length := hn ▸ hi
  have hmem : b.trackedIdxs.getD i 0 ∈ b.trackedIdxs := by
    rw [List.getD_eq_getElem _ _ hi']
    exact List.getElem_mem _
  have hccl := centerClampLoop_get b.trackedIdxs b.model hnd hb _ hmem
  rw [hsv, List.getD_eq_getElem _ _ (by rw [List.length_map]; exact hi'),
    List.getElem_map, ← List.getD_eq_getElem b.trackedIdxs 0 hi', weightAt, hccl]

theorem binarize_ok_weight (b b' : Binarizer) (hwf : b.WF)
    (h : b.binarize_weights = .ok b') (i : ℕ) (hi : i < b.num_of_params) :
    weightAt b'.model (b.trackedIdxs.getD i 0) =
      binT (b'.saved_params.getD i default) := by
  obtain ⟨hloop, htr, hsv, hnum⟩ := binarize_ok_dest b b' h
  obtain ⟨hlen, hn, hb, hnd⟩ := hwf
  have hi' : i < b.trackedIdxs.length := hn ▸ hi
  have hmem : b.trackedIdxs.getD i 0 ∈ b.trackedIdxs := by
    rw [List.getD_eq_getElem _ _ hi']
    exact List.getElem_mem _
  have hbl := binarizeLoop_get b.trackedIdxs (centerClampLoop b.model b.trackedIdxs)
    b'.model none hnd
    (fun x hx => by rw [centerClampLoop_length]; exact hb x hx) hloop _ hmem
  rw [weightAt, hbl]
  rw [binarize_ok_saved b b' ⟨hlen, hn, hb, hnd⟩ h i hi]
  have hccl := centerClampLoop_get b.trackedIdxs b.model hnd hb _ hmem
  rw [weightAt, hccl]

theorem binarize_frame (b b' : Binarizer) (h : b.binarize_weights = .ok b') (j : ℕ)
    (hj : j ∉ b.trackedIdxs) : moduleAt b'.model j = moduleAt b.model j := by
  obtain ⟨hloop, _, _, _⟩ := binarize_ok_dest b b' h
  rw [binarizeLoop_frame _ _ _ _ hloop j hj, centerClampLoop_frame _ _ _ hj]

theorem binarize_kind_bias (b b' : Binarizer) (h : b.binarize_weights = .ok b') (j : ℕ) :
    (moduleAt b'.model j).kind = (moduleAt b.model j).kind ∧
      (moduleAt b'.model j).bias = (moduleAt b.model j).bias := by
  obtain ⟨hloop, _, _, _⟩ := binarize_ok_dest b b' h
  obtain ⟨h1, h2⟩ := binarizeLoop_kind_bias _ _ _ _ hloop j
  obtain ⟨g1, g2⟩ := centerClampLoop_kind_bias b.trackedIdxs b.model j
  exact ⟨by rw [h1, g1], by rw [h2, g2]⟩

theorem restore_frame (b : Binarizer) (hwf : b.WF) (j : ℕ) (hj : j ∉ b.trackedIdxs) :
    moduleAt (b.restore_weights).model j = moduleAt b.model j := by
  obtain ⟨hlen, hnum, hb, hnd⟩ := hwf
  have hzlen : (b.trackedIdxs.zip b.saved_params).length = b.trackedIdxs.length := by
    rw [List.length_zip, hlen, Nat.min_self]
  have htake : (b.trackedIdxs.zip b.saved_params).take b.num_of_params =
      b.trackedIdxs.zip b.saved_params :=
    List.take_of_length_le (by rw [hzlen, hnum])
  have hmapfst : (b.trackedIdxs.zip b.saved_params).map Prod.fst = b.trackedIdxs :=
    List.map_fst_zip _ _ (le_of_eq hlen.symm)
  rw [restore_model, htake]
  exact restoreLoop_frame _ _ _ (by rw [hmapfst]; exact hj)

theorem restore_kind_bias (b : Binarizer) (j : ℕ) :
    (moduleAt (b.restore_weights).model j).kind = (moduleAt b.model j).kind ∧
      (moduleAt (b.restore_weights).model j).bias = (moduleAt b.model j).bias := by
  rw [restore_model]
  exact restoreLoop_kind_bias _ _ _

theorem qsign_mul_cases (x s : ℚ) :
    qsign x * s = s ∨ qsign x * s = -s ∨ qsign x * s = 0 := by
  rw [qsign]
  split_ifs <;> simp

theorem qsign_zero : qsign 0 = 0 := by simp [qsign]

theorem scale2_pos (r c : ℕ) (f : Fin r → Fin c → ℚ) (a : Fin r) (bb : Fin c)
    (hne : f a bb ≠ 0) : 0 < scale2 r c f a := by
  rw [scale2]
  apply div_pos
  · exact Finset.sum_pos' (fun x _ => abs_nonneg _)
      ⟨bb, Finset.mem_univ _, abs_pos.mpr hne⟩
  · exact_mod_cast bb.pos

theorem scale2_zero (r c : ℕ) (f : Fin r → Fin c → ℚ) (a : Fin r)
    (h : ∀ bb, f a bb = 0) : scale2 r c f a = 0 := by
  simp [scale2, h]

theorem scale4_pos (o i hh k : ℕ) (f : Fin o → Fin i → Fin hh → Fin k → ℚ) (a : Fin o)
    (bb : Fin i) (cc : Fin hh) (d : Fin k) (hne : f a bb cc d ≠ 0) :
    0 < scale4 o i hh k f a := by
  rw [scale4]
  apply div_pos
  · apply Finset.sum_pos'
      (fun x _ => Finset.sum_nonneg fun y _ => Finset.sum_nonneg fun z _ => abs_nonneg _)
    refine ⟨bb, Finset.mem_univ _, ?_⟩
    apply Finset.sum_pos' (fun y _ => Finset.sum_nonneg fun z _ => abs_nonneg _)
    refine ⟨cc, Finset.mem_univ _, ?_⟩
    exact Finset.sum_pos' (fun z _ => abs_nonneg _)
      ⟨d, Finset.mem_univ _, abs_pos.mpr hne⟩
  · have hp : 0 < i * hh * k := Nat.mul_pos (Nat.mul_pos bb.pos cc.pos) d.pos
    exact_mod_cast hp

theorem scale4_zero (o i hh k : ℕ) (f : Fin o → Fin i → Fin hh → Fin k → ℚ) (a : Fin o)
    (h : ∀ bb cc d, f a bb cc d = 0) : scale4 o i hh k f a = 0 := by
  simp [scale4, h]

theorem entry_signT (t : Tensor) (ix : List ℕ) :
    (signT t).entry ix = qsign (t.entry ix) := by
  have hq : qsign 0 = 0 := qsign_zero
  cases t <;>
    rcases ix with _ | ⟨a, _ | ⟨b, _ | ⟨c, _ | ⟨d, _ | ⟨e, rest⟩⟩⟩⟩⟩ <;>
    simp [signT, Tensor.entry, hq] <;>
    split_ifs <;>
    simp [hq]

/-- C1: for any model and any number of repeated
`binarize_weights(); restore_weights()` cycles with no optimizer step in
between, every tracked parameter's value after `restore_weights()` equals the
value copied into its aligned shadow buffer during the save step of the most
recent `binarize_weights()` call (which is exactly what `saved_params` holds
then), regardless of how many binarize/restore cycles preceded it. -/
theorem c1_round_trip (b0 bn b' : Binarizer) (hwf : b0.WF) (n : ℕ)
    (hn : Binarizer.cycleN n b0 = .ok bn)
    (hbin : bn.binarize_weights = .ok b') (i : ℕ) (hi : i < b'.num_of_params) :
    weightAt (b'.restore_weights).model (b'.trackedIdxs.getD i 0) =
      b'.saved_params.getD i default := by
  have hwfn : bn.WF := cycleN_WF n b0 bn hwf hn
  have hwf' : b'.WF := binarize_WF bn b' hwfn hbin
  exact restore_get b' hwf' i hi

set_option maxRecDepth 1000000 in
theorem c1_round_trip_witness :
    Binarizer.WF bEx ∧
      weightAt (bExAfter.restore_weights).model (bExAfter.trackedIdxs.getD 0 0) =
        bExAfter.saved_params.getD 0 default :=
  ⟨by decide,
    c1_round_trip bEx bEx bExAfter (by with_unfolding_all decide) 0 (by with_unfolding_all decide) (by with_unfolding_all decide) 0 (by decide)⟩

/-- C6: during `binarize_weights()`, every tracked parameter is first
centered by subtracting its mean along dimension 1 (row-wise for rank 2,
input-channel-wise for rank 4), then clamped elementwise to `[-1, 1]`, and only
afterwards copied into its aligned shadow buffer: after the save step the
shadow holds exactly the clamped, centered real-valued weight. -/
theorem c6_center_clamp_then_save (b b' : Binarizer) (hwf : b.WF)
    (h : b.binarize_weights = .ok b') (i : ℕ) (hi : i < b.num_of_params) :
    b'.saved_params.getD i default =
      clampT (centerT (weightAt b.model (b.trackedIdxs.getD i 0))) ∧
    (∀ r c f, weightAt b.model (b.trackedIdxs.getD i 0) = Tensor.t2 r c f →
      ∀ (a : Fin r) (bb : Fin c),
        (b'.saved_params.getD i default).entry [a.1, bb.1] =
          qclamp (f a bb - (∑ j, f a j) / (c : ℚ))) ∧
    (∀ o ii hh k f, weightAt b.model (b.trackedIdxs.getD i 0) = Tensor.t4 o ii hh k f →
      ∀ (a : Fin o) (bb : Fin ii) (cc : Fin hh) (d : Fin k),
        (b'.saved_params.getD i default).entry [a.1, bb.1, cc.1, d.1] =
          qclamp (f a bb cc d - (∑ j, f a j cc d) / (ii : ℚ))) := by
  have hsv := binarize_ok_saved b b' hwf h i hi
  refine ⟨hsv, ?_, ?_⟩
  · rintro r c f hw a bb
    rw [hsv, hw]
    show (clampT (centerT (Tensor.t2 r c f))).entry [a.1, bb.1] = _
    simp only [centerT, clampT]
    rw [entry2_fin]
  · rintro o ii hh k f hw a bb cc d
    rw [hsv, hw]
    show (clampT (centerT (Tensor.t4 o ii hh k f))).entry [a.1, bb.1, cc.1, d.1] = _
    simp only [centerT, clampT]
    rw [entry4_fin]

set_option maxRecDepth 1000000 in
theorem c6_center_clamp_then_save_witness :
    (bExAfter.saved_params.getD 0 default).entry [1, 0] = qclamp ((1 : ℚ) - (1 + 1) / 2) :=
  ((c6_center_clamp_then_save bEx bExAfter (by with_unfolding_all decide) (by with_unfolding_all decide) 0 (by decide)).2.1
    2 2 ![![(1 : ℚ), -1], ![1, 1]] (by with_unfolding_all decide) 1 0).trans
    (by norm_num [Fin.sum_univ_two])

/-- C2: after `binarize_weights()`, every tracked rank-2 (resp. rank-4)
parameter holds elementwise `sign(w) * scale` of its saved (clamped, centered)
value `w`, with `sign(0) = 0`: per output unit the scale is the L1 norm along
the input-unit axis divided by the number of input units (resp. per output
channel the L1 norm along the last axis summed over the input-channel and
kernel-height axes, divided by the number of elements of one output channel's
slice); every resulting entry is `+scale`, `-scale` or exactly `0`, and a zero
saved entry binarizes to exactly `0`. -/
theorem c2_binarized_weight_value (b b' : Binarizer) (hwf : b.WF)
    (h : b.binarize_weights = .ok b') (i : ℕ) (hi : i < b.num_of_params) :
    (∀ r c f, b'.saved_params.getD i default = Tensor.t2 r c f →
      ∀ (a : Fin r) (bb : Fin c),
        (weightAt b'.model (b.trackedIdxs.getD i 0)).entry [a.1, bb.1] =
            qsign (f a bb) * ((∑ j, |f a j|) / (c : ℚ)) ∧
          ((weightAt b'.model (b.trackedIdxs.getD i 0)).entry [a.1, bb.1] =
              (∑ j, |f a j|) / (c : ℚ) ∨
            (weightAt b'.model (b.trackedIdxs.getD i 0)).entry [a.1, bb.1] =
              -((∑ j, |f a j|) / (c : ℚ)) ∨
            (weightAt b'.model (b.trackedIdxs.getD i 0)).entry [a.1, bb.1] = 0) ∧
          (f a bb = 0 →
            (weightAt b'.model (b.trackedIdxs.getD i 0)).entry [a.1, bb.1] = 0)) ∧
    (∀ o ii hh k f, b'.saved_params.getD i default = Tensor.t4 o ii hh k f →
      ∀ (a : Fin o) (bb : Fin ii) (cc : Fin hh) (d : Fin k),
        (weightAt b'.model (b.trackedIdxs.getD i 0)).entry [a.1, bb.1, cc.1, d.1] =
            qsign (f a bb cc d) *
              ((∑ b2, ∑ c2, ∑ d2, |f a b2 c2 d2|) / ((ii * hh * k : ℕ) : ℚ)) ∧
          ((weightAt b'.model (b.trackedIdxs.getD i 0)).entry [a.1, bb.1, cc.1, d.1] =
              (∑ b2, ∑ c2, ∑ d2, |f a b2 c2 d2|) / ((ii * hh * k : ℕ) : ℚ) ∨
            (weightAt b'.model (b.trackedIdxs.getD i 0)).entry [a.1, bb.1, cc.1, d.1] =
              -((∑ b2, ∑ c2, ∑ d2, |f a b2 c2 d2|) / ((ii * hh * k : ℕ) : ℚ)) ∨
            (weightAt b'.model (b.trackedIdxs.getD i 0)).entry [a.1, bb.1, cc.1, d.1] = 0) ∧
          (f a bb cc d = 0 →
            (weightAt b'.model (b.trackedIdxs.getD i 0)).entry [a.1, bb.1, cc.1, d.1] = 0)) := by
  constructor
  · rintro r c f hsv a bb
    have hw := binarize_ok_weight b b' hwf h i hi
    rw [hsv] at hw
    have hout : (weightAt b'.model (b.trackedIdxs.getD i 0)).entry [a.1, bb.1] =
        qsign (f a bb) * scale2 r c f a := by
      rw [hw]
      show (bin2 r c f).entry [a.1, bb.1] = _
      rw [bin2, entry2_fin]
    refine ⟨by rw [hout]; simp only [scale2], ?_, ?_⟩
    · have hc := qsign_mul_cases (f a bb) (scale2 r c f a)
      simp only [scale2] at hc
      rw [hout]
      simp only [scale2]
      exact hc
    · intro hz
      rw [hout, hz, qsign_zero, zero_mul]
  · rintro o ii hh k f hsv a bb cc d
    have hw := binarize_ok_weight b b' hwf h i hi
    rw [hsv] at hw
    have hout : (weightAt b'.model (b.trackedIdxs.getD i 0)).entry [a.1, bb.1, cc.1, d.1] =
        qsign (f a bb cc d) * scale4 o ii hh k f a := by
      rw [hw]
      show (bin4 o ii hh k f).entry [a.1, bb.1, cc.1, d.1] = _
      rw [bin4, entry4_fin]
    refine ⟨by rw [hout]; simp only [scale4], ?_, ?_⟩
    · have hc := qsign_mul_cases (f a bb cc d) (scale4 o ii hh k f a)
      simp only [scale4] at hc
      rw [hout]
      simp only [scale4]
      exact hc
    · intro hz
      rw [hout, hz, qsign_zero, zero_mul]

set_option maxRecDepth 1000000 in
theorem c2_binarized_weight_value_witness :
    (weightAt bExAfter.model (bEx.trackedIdxs.getD 0 0)).entry [0, 1] =
      qsign (-1) * ((∑ j : Fin 2, |(![![(1 : ℚ), -1], ![0, 0]]) 0 j|) / ((2 : ℕ) : ℚ)) :=
  ((c2_binarized_weight_value bEx bExAfter (by with_unfolding_all decide) (by with_unfolding_all decide) 0 (by decide)).1
    2 2 ![![(1 : ℚ), -1], ![0, 0]] (by with_unfolding_all decide) 0 1).1

/-- C3: with the exclusion policy enabled (the default), if more than two
eligible layers exist, exactly the first and last eligible layers are dropped
and all others are tracked (for exactly 4 eligible layers, exactly the 2nd and
3rd are tracked); with two or fewer eligible layers the exclusion is a no-op
(for exactly 2 eligible layers both are tracked). -/
theorem c3_exclusion_policy (model : List NNModule) :
    ((Binarizer.init model true).trackedIdxs =
      if 2 < (eligibleIdxs model).length then ((eligibleIdxs model).drop 1).dropLast
      else eligibleIdxs model) ∧
    (∀ a b c d : ℕ, eligibleIdxs model = [a, b, c, d] →
      (Binarizer.init model true).trackedIdxs = [b, c]) ∧
    (∀ a b : ℕ, eligibleIdxs model = [a, b] →
      (Binarizer.init model true).trackedIdxs = [a, b]) ∧
    (2 < (eligibleIdxs model).length →
      (Binarizer.init model true).trackedIdxs.length = (eligibleIdxs model).length - 2) := by
  have hbase : (Binarizer.init model true).trackedIdxs =
      if 2 < (eligibleIdxs model).length then ((eligibleIdxs model).drop 1).dropLast
      else eligibleIdxs model := by
    by_cases hc : 2 < (eligibleIdxs model).length
    · rw [Binarizer.init, if_pos ⟨rfl, hc⟩, if_pos hc]
    · rw [Binarizer.init, if_neg (fun hh => hc hh.2), if_neg hc]
  refine ⟨hbase, ?_, ?_, ?_⟩
  · intro a b c d hh
    rw [hbase, hh]
    simp [List.dropLast]
  · intro a b hh
    rw [hbase, hh]
    simp
  · intro hc
    rw [hbase, if_pos hc]
    simp only [List.length_dropLast, List.length_drop]
    omega

theorem c3_exclusion_policy_witness :
    eligibleIdxs modelC3 = [0, 1, 2, 3] ∧
      (Binarizer.init modelC3 true).trackedIdxs = [1, 2] :=
  ⟨by decide, (c3_exclusion_policy modelC3).2.1 0 1 2 3 (by decide)⟩

/-- C4 (amended): constructing the `Binarizer` on a model with zero
eligible (convolution or linear) layers does not fail: the constructor
contains no raise statement (and the program defines no `ConfigurationError`);
it returns normally, tracking zero parameters. -/
theorem c4_no_eligible_layers_amended (model : List NNModule) (ig : Bool)
    (h : eligibleIdxs model = []) :
    Binarizer.init model ig = ⟨model, [], [], 0⟩ := by
  simp [Binarizer.init, h]

/-- C4 counterexample to the claim as stated: on a model exposing zero
eligible layers, construction completes normally (it does not raise any
error), returning a binarizer with an empty tracked set. -/
theorem c4_counterexample :
    eligibleIdxs modelC4 = [] ∧
      Binarizer.init modelC4 true = ⟨modelC4, [], [], 0⟩ ∧
      (Binarizer.init modelC4 true).num_of_params = 0 := by
  refine ⟨?_, ?_, ?_⟩ <;> with_unfolding_all decide

theorem c4_no_eligible_layers_witness :
    eligibleIdxs modelC4 = [] ∧ Binarizer.init modelC4 false = ⟨modelC4, [], [], 0⟩ :=
  ⟨by decide, c4_no_eligible_layers_amended modelC4 false (by decide)⟩

/-- C5 (amended): if the first tracked parameter has weight rank 3 (the
representative unsupported rank) at binarization time, `binarize_weights()`
fails with the unbound-local `mean` error (`UnboundLocalError` in Python), not
with a `ConfigurationError` — no such exception class exists in the program.
(If a supported-rank parameter precedes it, the source instead silently reuses
the stale `mean` of the previous parameter; see `BinErr.staleMeanBroadcast`.) -/
theorem c5_unsupported_rank_amended (b : Binarizer) (hwf : b.WF)
    (j0 : ℕ) (rest : List ℕ) (htr : b.trackedIdxs = j0 :: rest)
    (p q sdim : ℕ) (f : Fin p → Fin q → Fin sdim → ℚ)
    (hw : weightAt b.model j0 = Tensor.t3 p q sdim f) :
    b.binarize_weights = .error BinErr.unboundLocalMean := by
  obtain ⟨hlen, hn, hb, hnd⟩ := hwf
  have hmem : j0 ∈ b.trackedIdxs := by rw [htr]; exact List.mem_cons_self _ _
  have hccl := centerClampLoop_get b.trackedIdxs b.model hnd hb j0 hmem
  have hwc : weightAt (centerClampLoop b.model b.trackedIdxs) j0 =
      centerClamp (weightAt b.model j0) := by rw [weightAt, hccl]
  rw [binarize_weights_eq, htr, binarizeLoop, ← htr, hwc, hw]
  simp [centerClamp, centerT, clampT, binStep, Except.map]

/-- C5 counterexample to the claim as stated: a binarizer whose single
tracked weight has rank 3 fails with the unbound-local error — there is no
`ConfigurationError` anywhere in the program for it to raise. -/
theorem c5_counterexample :
    bC5.binarize_weights = Except.error BinErr.unboundLocalMean ∧
      (weightAt bC5.model 0).rank = 3 := by
  constructor
  · with_unfolding_all decide
  · decide

theorem c5_unsupported_rank_amended_witness :
    Binarizer.WF bC5 ∧ bC5.binarize_weights = .error BinErr.unboundLocalMean :=
  ⟨by decide,
    c5_unsupported_rank_amended bC5 (by decide) 0 [] (by decide) 1 1 1
      (fun _ _ _ => 1) (by with_unfolding_all decide)⟩

/-- C7 counterexample to the claim as stated: a tracked weight tensor that
is not all zero (its saved value has entry 1 at position (1,1)) for which the
ScaleFactor computed by `binarize_weights()` for output row 0 is 0, hence not
strictly positive; the binarized output of that all-zero row is exactly 0. -/
theorem c7_counterexample :
    bC7.binarize_weights = .ok bC7After ∧
      (bC7After.saved_params.getD 0 default).entry [1, 1] = 1 ∧
      ¬ 0 < scaleOf (bC7After.saved_params.getD 0 default) 0 ∧
      scaleOf (bC7After.saved_params.getD 0 default) 0 = 0 ∧
      (weightAt bC7After.model 0).entry [0, 0] = 0 ∧
      (weightAt bC7After.model 0).entry [0, 1] = 0 := by
  refine ⟨?_, ?_, ?_, ?_, ?_, ?_⟩ <;> with_unfolding_all decide

/-- C7 (amended): per output slice — for every tracked parameter, each
output row (rank 2) or output channel (rank 4) of the saved (centered,
clamped) value that is not all zero has a strictly positive ScaleFactor, and
each all-zero slice has scale exactly zero with an all-zero binarized output
(no NaN can arise: the divisor is the fixed positive slice size). -/
theorem c7_scale_positivity_amended (b b' : Binarizer) (hwf : b.WF)
    (h : b.binarize_weights = .ok b') (i : ℕ) (hi : i < b.num_of_params) :
    (∀ r c f, b'.saved_params.getD i default = Tensor.t2 r c f →
      ∀ a : Fin r,
        ((∃ bb, f a bb ≠ 0) → 0 < scaleOf (b'.saved_params.getD i default) a.1) ∧
        ((∀ bb, f a bb = 0) →
          scaleOf (b'.saved_params.getD i default) a.1 = 0 ∧
          ∀ bb : Fin c,
            (weightAt b'.model (b.trackedIdxs.getD i 0)).entry [a.1, bb.1] = 0)) ∧
    (∀ o ii hh k f, b'.saved_params.getD i default = Tensor.t4 o ii hh k f →
      ∀ a : Fin o,
        ((∃ bb cc d, f a bb cc d ≠ 0) →
          0 < scaleOf (b'.saved_params.getD i default) a.1) ∧
        ((∀ bb cc d, f a bb cc d = 0) →
          scaleOf (b'.saved_params.getD i default) a.1 = 0 ∧
          ∀ (bb : Fin ii) (cc : Fin hh) (d : Fin k),
            (weightAt b'.model (b.trackedIdxs.getD i 0)).entry
              [a.1, bb.1, cc.1, d.1] = 0)) := by
  constructor
  · rintro r c f hsv a
    constructor
    · rintro ⟨bb, hbb⟩
      rw [hsv]
      simp only [scaleOf]
      rw [dif_pos a.isLt]
      simpa using scale2_pos r c f a bb hbb
    · intro hz
      refine ⟨?_, ?_⟩
      · rw [hsv]
        simp only [scaleOf]
        rw [dif_pos a.isLt]
        simpa using scale2_zero r c f a hz
      · intro bb
        have hw := binarize_ok_weight b b' hwf h i hi
        rw [hsv] at hw
        rw [hw]
        show (bin2 r c f).entry [a.1, bb.1] = 0
        rw [bin2, entry2_fin, hz bb, qsign_zero, zero_mul]
  · rintro o ii hh k f hsv a
    constructor
    · rintro ⟨bb, cc, d, hne⟩
      rw [hsv]
      simp only [scaleOf]
      rw [dif_pos a.isLt]
      simpa using scale4_pos o ii hh k f a bb cc d hne
    · intro hz
      refine ⟨?_, ?_⟩
      · rw [hsv]
        simp only [scaleOf]
        rw [dif_pos a.isLt]
        simpa using scale4_zero o ii hh k f a hz
      · intro bb cc d
        have hw := binarize_ok_weight b b' hwf h i hi
        rw [hsv] at hw
        rw [hw]
        show (bin4 o ii hh k f).entry [a.1, bb.1, cc.1, d.1] = 0
        rw [bin4, entry4_fin, hz bb cc d, qsign_zero, zero_mul]

theorem c7_scale_positivity_amended_witness :
    0 < scaleOf (bC7After.saved_params.getD 0 default) 1 :=
  (((c7_scale_positivity_amended bC7 bC7After (by decide)
      (by with_unfolding_all decide) 0 (by decide)).1
    2 2 ![![(0 : ℚ), 0], ![-1, 1]] (by with_unfolding_all decide) 1).1
    ⟨1, by with_unfolding_all decide⟩)

/-- C8: parameters outside the tracked set — the excluded eligible layers,
batch-norm modules, and every module's bias — are never modified by
`binarize_weights()` or `restore_weights()`: untracked modules are unchanged
by both operations, and the bias and kind of every module (tracked or not) are
unchanged by both. -/
theorem c8_untouched_params (b b' : Binarizer) (hwf : b.WF)
    (h : b.binarize_weights = .ok b') :
    (∀ j, j ∉ b.trackedIdxs → moduleAt b'.model j = moduleAt b.model j) ∧
    (∀ j, (moduleAt b'.model j).bias = (moduleAt b.model j).bias ∧
      (moduleAt b'.model j).kind = (moduleAt b.model j).kind) ∧
    (∀ j, j ∉ b.trackedIdxs →
      moduleAt (b'.restore_weights).model j = moduleAt b.model j) ∧
    (∀ j, (moduleAt (b'.restore_weights).model j).bias = (moduleAt b.model j).bias ∧
      (moduleAt (b'.restore_weights).model j).kind = (moduleAt b.model j).kind) := by
  have hwf' := binarize_WF b b' hwf h
  obtain ⟨hloop, htr, hsv, hnum⟩ := binarize_ok_dest b b' h
  refine ⟨?_, ?_, ?_, ?_⟩
  · exact fun j hj => binarize_frame b b' h j hj
  · intro j
    obtain ⟨h1, h2⟩ := binarize_kind_bias b b' h j
    exact ⟨h2, h1⟩
  · intro j hj
    rw [restore_frame b' hwf' j (by rw [htr]; exact hj), binarize_frame b b' h j hj]
  · intro j
    obtain ⟨h1, h2⟩ := restore_kind_bias b' j
    obtain ⟨g1, g2⟩ := binarize_kind_bias b b' h j
    exact ⟨by rw [h2, g2], by rw [h1, g1]⟩

theorem c8_untouched_params_witness :
    moduleAt bExAfter.model 0 = moduleAt bEx.model 0 ∧
      moduleAt (bExAfter.restore_weights).model 0 = moduleAt bEx.model 0 :=
  ⟨(c8_untouched_params bEx bExAfter (by decide) (by with_unfolding_all decide)).1
      0 (by decide),
    (c8_untouched_params bEx bExAfter (by decide) (by with_unfolding_all decide)).2.2.1
      0 (by decide)⟩

/-- C9: `BinaryActivation.forward` returns the elementwise sign of its
input — `+1` at positive entries, `-1` at negative entries, exactly `0` at
zero entries — and does not mutate the input tensor: the saved context holds
the input value unchanged. -/
theorem c9_forward_sign (input : Tensor) :
    (BinaryActivation.forward input).1.saved = input ∧
    (∀ ix : List ℕ,
      ((BinaryActivation.forward input).2).entry ix = qsign (input.entry ix)) ∧
    (∀ ix : List ℕ,
      (0 < input.entry ix → ((BinaryActivation.forward input).2).entry ix = 1) ∧
      (input.entry ix < 0 → ((BinaryActivation.forward input).2).entry ix = -1) ∧
      (input.entry ix = 0 → ((BinaryActivation.forward input).2).entry ix = 0)) := by
  refine ⟨rfl, fun ix => entry_signT input ix, fun ix => ⟨?_, ?_, ?_⟩⟩
  · intro hx
    rw [show (BinaryActivation.forward input).2 = signT input from rfl,
      entry_signT, qsign, if_pos hx]
  · intro hx
    rw [show (BinaryActivation.forward input).2 = signT input from rfl,
      entry_signT, qsign, if_neg (lt_asymm hx), if_pos hx]
  · intro hx
    rw [show (BinaryActivation.forward input).2 = signT input from rfl,
      entry_signT, hx, qsign_zero]

theorem c9_forward_sign_witness :
    ((BinaryActivation.forward (Tensor.t2 1 1 ![![(-5 : ℚ)]])).2).entry [0, 0] = -1 :=
  ((c9_forward_sign (Tensor.t2 1 1 ![![(-5 : ℚ)]])).2.2 [0, 0]).2.1
    (by with_unfolding_all decide)

/-- C10: `BinaryActivation.backward` returns a downstream gradient
elementwise equal to the upstream gradient — the identity straight-through
estimator, with no clipping and no dependence on the saved input — leaving
both the saved input and the upstream gradient unmodified (the source clones
the upstream gradient; the clone is value-identical to it). -/
theorem c10_backward_identity (ctx ctx' : ActCtx) (grad_output : Tensor) :
    BinaryActivation.backward ctx grad_output = grad_output ∧
    (∀ ix : List ℕ,
      (BinaryActivation.backward ctx grad_output).entry ix = grad_output.entry ix) ∧
    BinaryActivation.backward ctx grad_output =
      BinaryActivation.backward ctx' grad_output :=
  ⟨rfl, fun _ => rfl, rfl⟩
